import Mathlib

/-!
Verification of the lrufy LRU cache (TypeScript sources: linked-list.ts and
lru-cache.ts) via a shallow embedding.  The JavaScript `Map` is modelled as an
association list in insertion order (`Map.set` on an existing key keeps the
original slot, a new key is appended at the end, iteration follows that
order).  The intrusive doubly-linked list is modelled by the sequence of its
nodes from head (most recently used) to tail, together with the separately
maintained `length` counter that the source keeps.  `Date.now()` becomes an
explicit `now : Int` argument.  Disposal callbacks are modelled as an emitted
trace of `DisposeEvent`s; each event additionally records whether, at the
moment the callback was dispatched, the entry was still present in the key
index and in the recency list (needed for the temporal ordering claims).
-/

set_option autoImplicit false

namespace Lrufy

/-- Removal reasons, from the `EvictionReason` enum of lru-cache.ts. -/
inductive EvictionReason : Type where
  | DELETED
  | EVICTED
  | EXPIRED
  | OVERWRITTEN
  | CACHE_CLEAR
deriving DecidableEq, Repr

/-- A node of the doubly linked list (class `Node` of linked-list.ts).
The prev/next pointers are represented by the node's position in the
`DoublyLinkedList.nodes` sequence. -/
structure Node (K V : Type) where
  key : K
  value : V
  size : Int
  expiry : Option Int
deriving DecidableEq, Repr

/-- Per-item options (`ItemOptions` of lru-cache.ts). -/
structure ItemOptions where
  ttl : Option Int
  size : Option Int
deriving DecidableEq, Repr

/-- The doubly linked list of linked-list.ts: `nodes` lists the nodes from
head to tail, `length` is the separately maintained counter field. -/
structure DoublyLinkedList (K V : Type) where
  nodes : List (Node K V)
  length : Nat
deriving DecidableEq, Repr

variable {K V : Type}

/-- `addToFront`: the node becomes the new head; length is incremented. -/
def DoublyLinkedList.addToFront (l : DoublyLinkedList K V) (node : Node K V) :
    DoublyLinkedList K V :=
  { nodes := node :: l.nodes, length := l.length + 1 }

/-- `remove(node)`: unlinks the node (pointer identity is modelled by value
identity, adequate because nodes in reachable caches have pairwise distinct
keys); length is decremented unconditionally, as in the source. -/
def DoublyLinkedList.remove [DecidableEq K] [DecidableEq V]
    (l : DoublyLinkedList K V) (node : Node K V) : DoublyLinkedList K V :=
  { nodes := l.nodes.erase node, length := l.length - 1 }

/-- `moveToFront(node)`: a no-op when the node is already the head, otherwise
`remove` followed by `addToFront`. -/
def DoublyLinkedList.moveToFront [DecidableEq K] [DecidableEq V]
    (l : DoublyLinkedList K V) (node : Node K V) : DoublyLinkedList K V :=
  if l.nodes.head? = some node then l else (l.remove node).addToFront node

/-- `removeTail()`: returns `null` on an empty list, otherwise
`remove(tail)`; removing the tail node drops the last element. -/
def DoublyLinkedList.removeTail (l : DoublyLinkedList K V) :
    Option (Node K V) × DoublyLinkedList K V :=
  match l.nodes.getLast? with
  | none => (none, l)
  | some t => (some t, { nodes := l.nodes.dropLast, length := l.length - 1 })

/-- `clear()`: resets head, tail and length. -/
def DoublyLinkedList.clear (_l : DoublyLinkedList K V) : DoublyLinkedList K V :=
  { nodes := [], length := 0 }

/-- JavaScript `Map.get`: the value stored under the key, if any. -/
def mapGet [DecidableEq K] {β : Type} : List (K × β) → K → Option β
  | [], _ => none
  | p :: rest, k => if p.1 = k then some p.2 else mapGet rest k

/-- JavaScript `Map.set`: replaces the value in place when the key is already
present (keeping its insertion slot), otherwise appends at the end. -/
def mapSet [DecidableEq K] {β : Type} : List (K × β) → K → β → List (K × β)
  | [], k, v => [(k, v)]
  | p :: rest, k, v => if p.1 = k then (k, v) :: rest else p :: mapSet rest k v

/-- JavaScript `Map.delete`: removes the entry stored under the key. -/
def mapDelete [DecidableEq K] {β : Type} : List (K × β) → K → List (K × β)
  | [], _ => []
  | p :: rest, k => if p.1 = k then rest else p :: mapDelete rest k

/-- Test `node.expiry !== null && node.expiry < now` (used by get/has/peek). -/
def expiryLt (expiry : Option Int) (now : Int) : Bool :=
  match expiry with
  | none => false
  | some e => decide (e < now)

/-- Test `node.expiry !== null && node.expiry <= now` (used by prune). -/
def expiryLe (expiry : Option Int) (now : Int) : Bool :=
  match expiry with
  | none => false
  | some e => decide (e ≤ now)

/-- The cache configuration after constructor defaulting
(`InternalLRUCacheOptions`).  `max` and `maxSize` use `none` for `Infinity`;
`dispose` records whether a disposal callback is configured (the callback
itself is modelled by the emitted event trace).  The timer fields
(`pruneInterval`) and `asyncDispose` only affect when and how callbacks are
dispatched, never the cache state, and are not represented. -/
structure Options (K V : Type) where
  max : Option Nat
  maxSize : Option Int
  ttl : Int
  sizeCalculation : V → K → Int
  dispose : Bool
  noDisposeOnSet : Bool
  allowStale : Bool

/-- One invocation of the disposal callback.  `inIndex` and `inList` record
whether the entry was still present in the key index resp. the recency list
at the moment the callback was dispatched. -/
structure DisposeEvent (K V : Type) where
  key : K
  value : V
  reason : EvictionReason
  inIndex : Bool
  inList : Bool
deriving DecidableEq, Repr

/-- The cache engine state (class `LRUCache` of lru-cache.ts). -/
structure LRUCache (K V : Type) where
  options : Options K V
  cache : List (K × Node K V)
  list : DoublyLinkedList K V
  totalSize : Int
  hits : Nat
  misses : Nat

/-- A freshly constructed cache with the given (already defaulted) options. -/
def emptyCache (opts : Options K V) : LRUCache K V :=
  { options := opts
    cache := []
    list := { nodes := [], length := 0 }
    totalSize := 0
    hits := 0
    misses := 0 }

/-- The `size` accessor: `this.cache.size`. -/
def LRUCache.size (c : LRUCache K V) : Nat :=
  c.cache.length

/-- `disposeItem`: dispatches the disposal callback unless none is
configured.  The event records the entry's index/list membership in the
state `c` current at the call site. -/
def LRUCache.disposeItem [DecidableEq K] (c : LRUCache K V) (key : K)
    (value : V) (reason : EvictionReason) : List (DisposeEvent K V) :=
  if c.options.dispose then
    [{ key := key
       value := value
       reason := reason
       inIndex := (mapGet c.cache key).isSome
       inList := c.list.nodes.any (fun n => n.key == key) }]
  else []

/-- `delete(key, reason)`: dispatches the disposal callback first (on the
state still containing the entry, as in the source), then removes the entry
from the index and the list and subtracts its size. -/
def LRUCache.delete [DecidableEq K] [DecidableEq V] (c : LRUCache K V)
    (key : K) (reason : EvictionReason) :
    Bool × LRUCache K V × List (DisposeEvent K V) :=
  match mapGet c.cache key with
  | none => (false, c, [])
  | some node =>
    let evs := c.disposeItem node.key node.value reason
    (true,
      { c with
        cache := mapDelete c.cache key
        list := c.list.remove node
        totalSize := c.totalSize - node.size },
      evs)

/-- The expiry phase of `prune()`: iterate over the entries (the iteration
visits the entries present when the loop starts; only the currently visited
key is ever deleted, so iterating the snapshot is faithful) and delete every
entry with `expiry <= now` with reason EXPIRED. -/
def pruneExpiredGo [DecidableEq K] [DecidableEq V]
    (entries : List (K × Node K V)) (now : Int) (c : LRUCache K V) :
    LRUCache K V × List (DisposeEvent K V) × Nat :=
  match entries with
  | [] => (c, [], 0)
  | (key, node) :: rest =>
    if expiryLe node.expiry now then
      let r := c.delete key .EXPIRED
      let r2 := pruneExpiredGo rest now r.2.1
      (r2.1, r.2.2 ++ r2.2.1, r2.2.2 + 1)
    else
      pruneExpiredGo rest now c

/-- The guard of the capacity loop of `prune()`:
`(max < Infinity && size > max) || (maxSize < Infinity && totalSize > maxSize)`. -/
def LRUCache.overCapacity (c : LRUCache K V) : Bool :=
  (match c.options.max with
   | some m => decide (c.cache.length > m)
   | none => false) ||
  (match c.options.maxSize with
   | some s => decide (c.totalSize > s)
   | none => false)

/-- The body of the capacity phase of `prune()`, with an explicit fuel
bounding the number of iterations (used only to make the recursion
structural; `pruneLoopFuel_fuel_irrelevant` below shows any fuel of at least
`list.nodes.length + 1` gives the same result, because every iteration that
does not stop the loop shrinks the list by one node).  One iteration: pop
the recency list's tail, delete its key from the index, dispatch the
disposal callback with reason EVICTED (on the state with the entry already
detached, as in the source), and subtract its size. -/
def LRUCache.pruneLoopFuel [DecidableEq K] [DecidableEq V] :
    Nat → LRUCache K V → LRUCache K V × List (DisposeEvent K V) × Nat
  | 0, c => (c, [], 0)
  | fuel + 1, c =>
    if c.overCapacity then
      match c.list.removeTail with
      | (none, _) => (c, [], 0)
      | (some node, list') =>
        let c1 : LRUCache K V :=
          { c with list := list', cache := mapDelete c.cache node.key }
        let evs := c1.disposeItem node.key node.value .EVICTED
        let c2 : LRUCache K V :=
          { c1 with totalSize := c1.totalSize - node.size }
        let r := pruneLoopFuel fuel c2
        (r.1, evs ++ r.2.1, r.2.2 + 1)
    else (c, [], 0)

/-- The capacity phase of `prune()`: the while loop, run with enough fuel to
reach its natural termination. -/
def LRUCache.pruneLoop [DecidableEq K] [DecidableEq V] (c : LRUCache K V) :
    LRUCache K V × List (DisposeEvent K V) × Nat :=
  pruneLoopFuel (c.list.nodes.length + 1) c

/-- `prune()`: expiry phase followed by the capacity phase; returns the total
number of removed entries. -/
def LRUCache.prune [DecidableEq K] [DecidableEq V] (c : LRUCache K V)
    (now : Int) : LRUCache K V × List (DisposeEvent K V) × Nat :=
  let r1 := pruneExpiredGo c.cache now c
  let r2 := r1.1.pruneLoop
  (r2.1, r1.2.1 ++ r2.2.1, r1.2.2 + r2.2.2)

/-- `get(key)`: miss counts a miss; an expired entry (`expiry < now`) is
returned stale under `allowStale` (hit, no recency change) or deleted with
reason EXPIRED (miss); otherwise the entry is moved to the front and a hit
is counted. -/
def LRUCache.get [DecidableEq K] [DecidableEq V] (c : LRUCache K V) (key : K)
    (now : Int) : Option V × LRUCache K V × List (DisposeEvent K V) :=
  match mapGet c.cache key with
  | none => (none, { c with misses := c.misses + 1 }, [])
  | some node =>
    if expiryLt node.expiry now then
      if c.options.allowStale then
        (some node.value, { c with hits := c.hits + 1 }, [])
      else
        let r := c.delete key .EXPIRED
        (none, { r.2.1 with misses := r.2.1.misses + 1 }, r.2.2)
    else
      (some node.value,
        { c with list := c.list.moveToFront node, hits := c.hits + 1 }, [])

/-- `has(key)`: pure freshness check, no state change. -/
def LRUCache.has [DecidableEq K] (c : LRUCache K V) (key : K) (now : Int) :
    Bool × LRUCache K V :=
  match mapGet c.cache key with
  | none => (false, c)
  | some node =>
    if expiryLt node.expiry now then
      if !c.options.allowStale then (false, c) else (true, c)
    else (true, c)

/-- `peek(key)`: like `has` but returns the value; no state change. -/
def LRUCache.peek [DecidableEq K] (c : LRUCache K V) (key : K) (now : Int) :
    Option V × LRUCache K V :=
  match mapGet c.cache key with
  | none => (none, c)
  | some node =>
    if expiryLt node.expiry now then
      if !c.options.allowStale then (none, c) else (some node.value, c)
    else (some node.value, c)

/-- `set(key, value, options)`: on overwrite, optionally dispose the old
value (reason OVERWRITTEN, dispatched while the old entry is still linked),
unlink the old entry and subtract its size; then build the new node
(per-item ttl/size defaulting to the configured ones; `ttl > 0` sets
`expiry = now + ttl`), push it to the front, store it in the index, add its
size, and finally run `prune()`. -/
def LRUCache.set [DecidableEq K] [DecidableEq V] (c : LRUCache K V) (key : K)
    (value : V) (opts : ItemOptions) (now : Int) :
    LRUCache K V × List (DisposeEvent K V) :=
  let step1 : LRUCache K V × List (DisposeEvent K V) :=
    match mapGet c.cache key with
    | some existing =>
      let evs :=
        if !c.options.noDisposeOnSet then
          c.disposeItem existing.key existing.value .OVERWRITTEN
        else []
      ({ c with
          list := c.list.remove existing
          totalSize := c.totalSize - existing.size }, evs)
    | none => (c, [])
  let c1 := step1.1
  let ttl := opts.ttl.getD c1.options.ttl
  let expiry := if ttl > 0 then some (now + ttl) else none
  let size := opts.size.getD (c1.options.sizeCalculation value key)
  let node : Node K V := { key := key, value := value, size := size, expiry := expiry }
  let c2 : LRUCache K V :=
    { c1 with
      list := c1.list.addToFront node
      cache := mapSet c1.cache key node
      totalSize := c1.totalSize + size }
  let r := c2.prune now
  (r.1, step1.2 ++ r.2.1)

/-- `clear()`: dispatch the disposal callback for every entry (each on the
still fully populated state, as in the source, which clears the index and
list only after the loop), then reset index, list and `totalSize`. -/
def LRUCache.clear [DecidableEq K] (c : LRUCache K V) :
    LRUCache K V × List (DisposeEvent K V) :=
  let evs :=
    if c.options.dispose then
      (c.cache.map (fun p => c.disposeItem p.1 p.2.value .CACHE_CLEAR)).flatten
    else []
  ({ c with cache := [], list := c.list.clear, totalSize := 0 }, evs)

/-- The body of `serialize()`: one tuple per entry in iteration order, with
`size` always populated; an entry with an expiry gets the remaining
`ttl = expiry - now` if positive, is skipped when stale and `allowStale` is
off, and is emitted without any ttl when stale under `allowStale`. -/
def serializeGo (allowStale : Bool) (now : Int) :
    List (K × Node K V) → List (K × V × ItemOptions)
  | [] => []
  | (key, node) :: rest =>
    match node.expiry with
    | some e =>
      let ttl := e - now
      if ttl > 0 then
        (key, node.value, { ttl := some ttl, size := some node.size }) ::
          serializeGo allowStale now rest
      else if !allowStale then
        serializeGo allowStale now rest
      else
        (key, node.value, { ttl := none, size := some node.size }) ::
          serializeGo allowStale now rest
    | none =>
      (key, node.value, { ttl := none, size := some node.size }) ::
        serializeGo allowStale now rest

/-- `serialize()`. -/
def LRUCache.serialize (c : LRUCache K V) (now : Int) :
    List (K × V × ItemOptions) :=
  serializeGo c.options.allowStale now c.cache

/-- The loop of `deserialize(data)`: `set` for each tuple in order. -/
def deserializeGo [DecidableEq K] [DecidableEq V] (c : LRUCache K V)
    (data : List (K × V × ItemOptions)) (now : Int) :
    LRUCache K V × List (DisposeEvent K V) :=
  match data with
  | [] => (c, [])
  | (key, value, opts) :: rest =>
    let r := c.set key value opts now
    let r2 := deserializeGo r.1 rest now
    (r2.1, r.2 ++ r2.2)

/-- `deserialize(data)`: `clear()` then `set` for each tuple in order. -/
def LRUCache.deserialize [DecidableEq K] [DecidableEq V] (c : LRUCache K V)
    (data : List (K × V × ItemOptions)) (now : Int) :
    LRUCache K V × List (DisposeEvent K V) :=
  let r := c.clear
  let r2 := deserializeGo r.1 data now
  (r2.1, r.2 ++ r2.2)

/-- Every stored pair maps its key to a node carrying that same key. -/
def KeyConsistent (m : List (K × Node K V)) : Prop :=
  ∀ p ∈ m, p.2.key = p.1

/-- Well-formedness of a cache state: the index has pairwise distinct keys,
nodes carry their index key, the recency list holds exactly the indexed
nodes (in some order), the list's `length` counter is correct, and
`totalSize` is the sum of the entry sizes. -/
def LRUCache.WF [DecidableEq K] [DecidableEq V] (c : LRUCache K V) : Prop :=
  (c.cache.map Prod.fst).Nodup ∧
  KeyConsistent c.cache ∧
  List.Perm (c.cache.map Prod.snd) c.list.nodes ∧
  c.list.length = c.list.nodes.length ∧
  c.totalSize = (c.list.nodes.map (fun n => n.size)).sum

instance [DecidableEq K] [DecidableEq V] (c : LRUCache K V) :
    Decidable c.WF := by
  unfold LRUCache.WF KeyConsistent
  infer_instance

/-- The size bookkeeping invariant asserted by the spec: the `size` accessor,
the key index cardinality and the recency list length (both the counter and
the actual number of nodes) agree, and no entry occurs twice in the list. -/
def sizeInv [DecidableEq K] [DecidableEq V] (c : LRUCache K V) : Prop :=
  c.size = c.cache.length ∧
  c.cache.length = c.list.nodes.length ∧
  c.list.length = c.list.nodes.length ∧
  c.list.nodes.Nodup ∧
  (c.list.nodes.map (fun n => n.key)).Nodup

/-- Example configuration: `maxSize = 10`, otherwise defaults, with a
disposal callback configured. -/
def exOptsSize : Options Nat Nat :=
  { max := none, maxSize := some 10, ttl := 0, sizeCalculation := fun _ _ => 1,
    dispose := true, noDisposeOnSet := false, allowStale := false }

/-- Example configuration: `max = 2`, otherwise defaults. -/
def exOptsMax2 : Options Nat Nat :=
  { max := some 2, maxSize := none, ttl := 0, sizeCalculation := fun _ _ => 1,
    dispose := false, noDisposeOnSet := false, allowStale := false }

/-- Example configuration: `ttl = 1000`, `allowStale = false`, with a
disposal callback configured. -/
def exOptsTtl : Options Nat Nat :=
  { max := none, maxSize := none, ttl := 1000, sizeCalculation := fun _ _ => 1,
    dispose := true, noDisposeOnSet := false, allowStale := false }

/-- Example configuration: `ttl = 1000`, `allowStale = true`. -/
def exOptsStale : Options Nat Nat :=
  { max := none, maxSize := none, ttl := 1000, sizeCalculation := fun _ _ => 1,
    dispose := false, noDisposeOnSet := false, allowStale := true }

/-- Cache under `exOptsTtl` holding key 5 ↦ 9 with expiry 1000, produced by
`set(5, 9)` at time 0. -/
def exCacheTtl : LRUCache Nat Nat :=
  ((emptyCache exOptsTtl).set 5 9 { ttl := none, size := none } 0).1

/-- Cache under `exOptsStale` holding key 5 ↦ 9 with expiry 1000, produced
by `set(5, 9)` at time 0. -/
def exCacheStale : LRUCache Nat Nat :=
  ((emptyCache exOptsStale).set 5 9 { ttl := none, size := none } 0).1

/-- Scenario cache: `max = 2`, then `set(10, 1)`, `set(20, 2)`, `set(30, 3)`
at time 0. -/
def exCacheABC : LRUCache Nat Nat :=
  ((((emptyCache exOptsMax2).set 10 1 { ttl := none, size := none } 0).1.set
      20 2 { ttl := none, size := none } 0).1.set
      30 3 { ttl := none, size := none } 0).1

/-- The node that `set(key, value, opts)` constructs at time `now` under
configuration `o` (step 2 and 3 of `set`): per-item ttl/size default to the
configured ones, and a positive ttl yields `expiry = now + ttl`. -/
def setNode (o : Options K V) (key : K) (value : V) (opts : ItemOptions)
    (now : Int) : Node K V :=
  { key := key
    value := value
    size := opts.size.getD (o.sizeCalculation value key)
    expiry :=
      if opts.ttl.getD o.ttl > 0 then some (now + opts.ttl.getD o.ttl)
      else none }

/-- A full recomputation of the aggregate size: the sum of the `size` fields
of all entries currently held in the key index. -/
def totalSizeRecompute (c : LRUCache K V) : Int :=
  (c.cache.map (fun p => p.2.size)).sum

/-- Example configuration with no capacity bounds, no default ttl, no
disposal callback. -/
def exOptsPlain : Options Nat Nat :=
  { max := none, maxSize := none, ttl := 0, sizeCalculation := fun _ _ => 1,
    dispose := false, noDisposeOnSet := false, allowStale := false }

/-! ### Lemmas about the association-list model of the JavaScript Map -/

theorem mapGet_eq_none_iff {β : Type} [DecidableEq K] {m : List (K × β)}
    {k : K} : mapGet m k = none ↔ k ∉ m.map Prod.fst := by
  induction m with
  | nil => simp [mapGet]
  | cons p rest ih =>
    simp only [mapGet, List.map_cons, List.mem_cons]
    by_cases h : p.1 = k
    · simp [h]
    · rw [if_neg h, ih]
      constructor
      · intro hn hc
        rcases hc with hc | hc
        · exact h hc.symm
        · exact hn hc
      · intro hn hc
        exact hn (Or.inr hc)

theorem mem_of_mapGet_eq_some {β : Type} [DecidableEq K] {m : List (K × β)}
    {k : K} {v : β} (h : mapGet m k = some v) : (k, v) ∈ m := by
  induction m with
  | nil => simp [mapGet] at h
  | cons p rest ih =>
    by_cases hk : p.1 = k
    · simp only [mapGet, if_pos hk] at h
      cases h
      subst hk
      exact List.mem_cons_self _ _
    · simp only [mapGet, if_neg hk] at h
      exact List.mem_cons_of_mem _ (ih h)

theorem mapGet_eq_of_mem_nodup {β : Type} [DecidableEq K] {m : List (K × β)}
    {k : K} {v : β} (hnd : (m.map Prod.fst).Nodup) (h : (k, v) ∈ m) :
    mapGet m k = some v := by
  induction m with
  | nil => simp at h
  | cons p rest ih =>
    rcases List.mem_cons.1 h with h₁ | h₁
    · cases h₁
      simp [mapGet]
    · have hk : p.1 ≠ k := by
        intro he
        have : k ∈ rest.map Prod.fst :=
          List.mem_map.2 ⟨(k, v), h₁, rfl⟩
        rw [List.map_cons, he] at hnd
        exact (List.nodup_cons.1 hnd).1 this
      simpa [mapGet, hk] using ih (List.nodup_cons.1 (by simpa using hnd)).2 h₁

theorem mapSet_map_fst_of_mem {β : Type} [DecidableEq K] {m : List (K × β)}
    {k : K} (v : β) (h : k ∈ m.map Prod.fst) :
    (mapSet m k v).map Prod.fst = m.map Prod.fst := by
  induction m with
  | nil => simp at h
  | cons p rest ih =>
    by_cases hk : p.1 = k
    · simp [mapSet, hk]
    · have : k ∈ rest.map Prod.fst := by
        rw [List.map_cons, List.mem_cons] at h
        rcases h with h₁ | h₁
        · exact absurd h₁.symm hk
        · exact h₁
      simp [mapSet, hk, ih this]

theorem mapSet_eq_append_of_not_mem {β : Type} [DecidableEq K]
    {m : List (K × β)} {k : K} (v : β) (h : k ∉ m.map Prod.fst) :
    mapSet m k v = m ++ [(k, v)] := by
  induction m with
  | nil => simp [mapSet]
  | cons p rest ih =>
    have hk : p.1 ≠ k := by
      intro he
      exact h (by simp [he])
    have : k ∉ rest.map Prod.fst := fun hc => h (by simp [hc])
    simp [mapSet, hk, ih this]

theorem mapDelete_map_fst {β : Type} [DecidableEq K] (m : List (K × β))
    (k : K) : (mapDelete m k).map Prod.fst = (m.map Prod.fst).erase k := by
  induction m with
  | nil => simp [mapDelete]
  | cons p rest ih =>
    by_cases hk : p.1 = k
    · simp [mapDelete, hk, List.erase_cons_head]
    · simp only [mapDelete, if_neg hk, List.map_cons]
      rw [List.erase_cons_tail (by simp [hk]), ih]

theorem mem_of_mem_mapDelete {β : Type} [DecidableEq K] {m : List (K × β)}
    {k : K} {p : K × β} (h : p ∈ mapDelete m k) : p ∈ m := by
  induction m with
  | nil => simp [mapDelete] at h
  | cons q rest ih =>
    by_cases hk : q.1 = k
    · rw [mapDelete, if_pos hk] at h
      exact List.mem_cons_of_mem _ h
    · rw [mapDelete, if_neg hk] at h
      rcases List.mem_cons.1 h with h₁ | h₁
      · exact h₁ ▸ List.mem_cons_self _ _
      · exact List.mem_cons_of_mem _ (ih h₁)

theorem mapGet_mapDelete_self {β : Type} [DecidableEq K] {m : List (K × β)}
    (hnd : (m.map Prod.fst).Nodup) (k : K) :
    mapGet (mapDelete m k) k = none := by
  rw [mapGet_eq_none_iff, mapDelete_map_fst]
  exact hnd.not_mem_erase

theorem KeyConsistent.tail [DecidableEq K] {p : K × Node K V}
    {rest : List (K × Node K V)} (hc : KeyConsistent (p :: rest)) :
    KeyConsistent rest :=
  fun q hq => hc q (List.mem_cons_of_mem _ hq)

theorem KeyConsistent.of_mapDelete [DecidableEq K]
    {m : List (K × Node K V)} {k : K} (hc : KeyConsistent m) :
    KeyConsistent (mapDelete m k) :=
  fun p hp => hc p (mem_of_mem_mapDelete hp)

theorem KeyConsistent.of_mapSet [DecidableEq K] {m : List (K × Node K V)}
    {k : K} {n : Node K V} (hc : KeyConsistent m) (hn : n.key = k) :
    KeyConsistent (mapSet m k n) := by
  induction m with
  | nil =>
    intro p hp
    simp only [mapSet, List.mem_singleton] at hp
    subst hp
    exact hn
  | cons q rest ih =>
    intro p hp
    by_cases hk : q.1 = k
    · rw [mapSet, if_pos hk] at hp
      rcases List.mem_cons.1 hp with h₁ | h₁
      · subst h₁
        exact hn
      · exact hc.tail p h₁
    · rw [mapSet, if_neg hk] at hp
      rcases List.mem_cons.1 hp with h₁ | h₁
      · subst h₁
        exact hc p (List.mem_cons_self _ _)
      · exact ih hc.tail p h₁

theorem KeyConsistent.append_single [DecidableEq K]
    {m : List (K × Node K V)} {k : K} {n : Node K V}
    (hc : KeyConsistent m) (hn : n.key = k) :
    KeyConsistent (m ++ [(k, n)]) := by
  intro p hp
  rcases List.mem_append.1 hp with h | h
  · exact hc p h
  · rw [List.mem_singleton] at h
    subst h
    exact hn

theorem mapDelete_map_snd [DecidableEq K] [DecidableEq V]
    {m : List (K × Node K V)} {k : K} {n : Node K V}
    (hc : KeyConsistent m) (hget : mapGet m k = some n) :
    (mapDelete m k).map Prod.snd = (m.map Prod.snd).erase n := by
  induction m with
  | nil => simp [mapGet] at hget
  | cons p rest ih =>
    by_cases hk : p.1 = k
    · simp only [mapGet, if_pos hk] at hget
      cases hget
      simp [mapDelete, hk, List.erase_cons_head]
    · simp only [mapGet, if_neg hk] at hget
      have hkey : n.key = k := hc.tail (k, n) (mem_of_mapGet_eq_some hget)
      have hpn : p.2 ≠ n := by
        intro he
        exact hk (by rw [← hc p (List.mem_cons_self _ _), he, hkey])
      simp only [mapDelete, if_neg hk, List.map_cons]
      rw [List.erase_cons_tail (by simp [hpn]), ih hc.tail hget]

theorem mapSet_map_snd_perm [DecidableEq K] [DecidableEq V]
    {m : List (K × Node K V)} {k : K} {ex : Node K V} (n : Node K V)
    (hc : KeyConsistent m) (hget : mapGet m k = some ex) :
    List.Perm ((mapSet m k n).map Prod.snd)
      (n :: (m.map Prod.snd).erase ex) := by
  induction m with
  | nil => simp [mapGet] at hget
  | cons p rest ih =>
    by_cases hk : p.1 = k
    · simp only [mapGet, if_pos hk] at hget
      cases hget
      simp only [mapSet, if_pos hk, List.map_cons, List.erase_cons_head]
      exact List.Perm.refl _
    · simp only [mapGet, if_neg hk] at hget
      have hkey : ex.key = k := hc.tail (k, ex) (mem_of_mapGet_eq_some hget)
      have hpn : p.2 ≠ ex := by
        intro he
        exact hk (by rw [← hc p (List.mem_cons_self _ _), he, hkey])
      simp only [mapSet, if_neg hk, List.map_cons]
      rw [List.erase_cons_tail (by simp [hpn])]
      exact ((ih hc.tail hget).cons p.2).trans (List.Perm.swap n p.2 _)

/-! ### Facts derivable from well-formedness -/

theorem LRUCache.WF.keyNodup [DecidableEq K] [DecidableEq V]
    {c : LRUCache K V} (h : c.WF) :
    (c.list.nodes.map (fun n => n.key)).Nodup := by
  obtain ⟨hnd, hkc, hperm, -, -⟩ := h
  have hmap : (c.cache.map Prod.snd).map (fun n => n.key) = c.cache.map Prod.fst := by
    rw [List.map_map]
    exact List.map_congr_left (fun p hp => hkc p hp)
  have := hperm.map (fun n => n.key)
  rw [hmap] at this
  exact this.nodup hnd

theorem LRUCache.WF.cacheLength [DecidableEq K] [DecidableEq V]
    {c : LRUCache K V} (h : c.WF) :
    c.cache.length = c.list.nodes.length := by
  have := h.2.2.1.length_eq
  simpa using this

theorem LRUCache.WF.mapGet_of_node_mem [DecidableEq K] [DecidableEq V]
    {c : LRUCache K V} (h : c.WF) {n : Node K V} (hn : n ∈ c.list.nodes) :
    mapGet c.cache n.key = some n := by
  obtain ⟨hnd, hkc, hperm, -, -⟩ := h
  have : n ∈ c.cache.map Prod.snd := (hperm.mem_iff).2 hn
  rcases List.mem_map.1 this with ⟨p, hp, hp2⟩
  have hfst : p.1 = n.key := by rw [← hkc p hp, hp2]
  have : (n.key, n) ∈ c.cache := by
    have : p = (n.key, n) := Prod.ext hfst hp2
    rwa [this] at hp
  exact mapGet_eq_of_mem_nodup hnd this

theorem LRUCache.WF.sizeInv [DecidableEq K] [DecidableEq V]
    {c : LRUCache K V} (h : c.WF) : sizeInv c := by
  refine ⟨rfl, h.cacheLength, h.2.2.2.1, ?_, h.keyNodup⟩
  exact h.keyNodup.of_map _

/-! ### Step lemmas unfolding the operations branch by branch -/

theorem removeTail_eq_none {l l' : DoublyLinkedList K V}
    (h : l.removeTail = (none, l')) : l.nodes = [] ∧ l' = l := by
  unfold DoublyLinkedList.removeTail at h
  cases hg : l.nodes.getLast? with
  | none =>
    rw [hg] at h
    injection h with h1 h2
    exact ⟨List.getLast?_eq_none_iff.1 hg, h2.symm⟩
  | some t =>
    rw [hg] at h
    injection h with h1 h2
    exact absurd h1 (by simp)

theorem removeTail_eq_some {l l' : DoublyLinkedList K V} {node : Node K V}
    (h : l.removeTail = (some node, l')) :
    l.nodes.dropLast ++ [node] = l.nodes ∧
    l' = { nodes := l.nodes.dropLast, length := l.length - 1 } := by
  unfold DoublyLinkedList.removeTail at h
  cases hg : l.nodes.getLast? with
  | none =>
    rw [hg] at h
    injection h with h1 h2
    exact absurd h1 (by simp)
  | some t =>
    rw [hg] at h
    injection h with h1 h2
    injection h1 with h1
    subst h1
    exact ⟨List.dropLast_append_getLast? _ (by rw [hg]; rfl), h2.symm⟩

theorem delete_eq_of_none [DecidableEq K] [DecidableEq V] {c : LRUCache K V}
    {k : K} (reason : EvictionReason) (hget : mapGet c.cache k = none) :
    c.delete k reason = (false, c, []) := by
  simp only [LRUCache.delete, hget]

theorem delete_eq_of_some [DecidableEq K] [DecidableEq V] {c : LRUCache K V}
    {k : K} {n : Node K V} (reason : EvictionReason)
    (hget : mapGet c.cache k = some n) :
    c.delete k reason =
      (true,
        { c with
          cache := mapDelete c.cache k
          list := c.list.remove n
          totalSize := c.totalSize - n.size },
        c.disposeItem n.key n.value reason) := by
  simp only [LRUCache.delete, hget]

theorem sum_erase_of_mem [DecidableEq K] [DecidableEq V]
    {nodes : List (Node K V)} {n : Node K V} (h : n ∈ nodes) :
    ((nodes.erase n).map (fun x => x.size)).sum
      = (nodes.map (fun x => x.size)).sum - n.size := by
  have hp := (List.perm_cons_erase h).map (fun x => x.size)
  have hs := hp.sum_eq
  simp only [List.map_cons, List.sum_cons] at hs
  omega

/-! ### Preservation of well-formedness -/

theorem LRUCache.WF.node_mem [DecidableEq K] [DecidableEq V]
    {c : LRUCache K V} (h : c.WF) {k : K} {n : Node K V}
    (hget : mapGet c.cache k = some n) : n ∈ c.list.nodes :=
  h.2.2.1.mem_iff.1 (List.mem_map.2 ⟨(k, n), mem_of_mapGet_eq_some hget, rfl⟩)

theorem wf_delete [DecidableEq K] [DecidableEq V]
    {c : LRUCache K V} (h : c.WF) (k : K) (reason : EvictionReason) :
    ((c.delete k reason).2.1).WF := by
  cases hget : mapGet c.cache k with
  | none =>
    rw [delete_eq_of_none reason hget]
    exact h
  | some n =>
    rw [delete_eq_of_some reason hget]
    have hmem : n ∈ c.list.nodes := h.node_mem hget
    obtain ⟨hnd, hkc, hperm, hlen, hsum⟩ := h
    refine ⟨?_, hkc.of_mapDelete, ?_, ?_, ?_⟩
    · rw [mapDelete_map_fst]
      exact hnd.erase _
    · rw [mapDelete_map_snd hkc hget]
      exact hperm.erase n
    · show c.list.length - 1 = (c.list.nodes.erase n).length
      rw [List.length_erase_of_mem hmem, hlen]
    · show c.totalSize - n.size = ((c.list.nodes.erase n).map (fun x => x.size)).sum
      rw [sum_erase_of_mem hmem, hsum]

theorem wf_clear [DecidableEq K] [DecidableEq V] (c : LRUCache K V) :
    ((c.clear).1).WF := by
  refine ⟨?_, ?_, ?_, rfl, rfl⟩ <;>
    simp [LRUCache.clear, DoublyLinkedList.clear, KeyConsistent]

theorem wf_get [DecidableEq K] [DecidableEq V]
    {c : LRUCache K V} (h : c.WF) (k : K) (now : Int) :
    ((c.get k now).2.1).WF := by
  cases hget : mapGet c.cache k with
  | none =>
    simp only [LRUCache.get, hget]
    exact h
  | some n =>
    by_cases hexp : expiryLt n.expiry now
    · by_cases hstale : c.options.allowStale
      · simp only [LRUCache.get, hget, hexp, hstale, if_true]
        exact h
      · simp only [LRUCache.get, hget, hexp, hstale, if_true, if_false,
          Bool.false_eq_true]
        exact wf_delete h k .EXPIRED
    · simp only [LRUCache.get, hget, hexp]
      have hmem : n ∈ c.list.nodes := h.node_mem hget
      obtain ⟨hnd, hkc, hperm, hlen, hsum⟩ := h
      unfold DoublyLinkedList.moveToFront
      by_cases hhead : c.list.nodes.head? = some n
      · simp only [hhead, if_true]
        exact ⟨hnd, hkc, hperm, hlen, hsum⟩
      · simp only [hhead, if_false]
        have hlen1 : 1 ≤ c.list.nodes.length :=
          List.length_pos.2 (List.ne_nil_of_mem hmem)
        refine ⟨hnd, hkc, ?_, ?_, ?_⟩
        · exact hperm.trans (List.perm_cons_erase hmem)
        · show c.list.length - 1 + 1 = (n :: c.list.nodes.erase n).length
          rw [List.length_cons, List.length_erase_of_mem hmem, hlen]
        · show c.totalSize
            = ((n :: c.list.nodes.erase n).map (fun x => x.size)).sum
          rw [List.map_cons, List.sum_cons, sum_erase_of_mem hmem, hsum]
          omega

theorem wf_pruneExpiredGo [DecidableEq K] [DecidableEq V] :
    ∀ (entries : List (K × Node K V)) (now : Int) {c : LRUCache K V},
      c.WF → ((pruneExpiredGo entries now c).1).WF := by
  intro entries
  induction entries with
  | nil =>
    intro now c h
    exact h
  | cons p rest ih =>
    intro now c h
    obtain ⟨key, node⟩ := p
    by_cases he : expiryLe node.expiry now
    · simp only [pruneExpiredGo, he, if_true]
      exact ih now (wf_delete h key .EXPIRED)
    · simp only [pruneExpiredGo, he, if_false, Bool.false_eq_true]
      exact ih now h

theorem wf_pruneLoopFuel_step [DecidableEq K] [DecidableEq V]
    {c : LRUCache K V} (h : c.WF) {node : Node K V}
    {list' : DoublyLinkedList K V}
    (hrt : c.list.removeTail = (some node, list')) :
    (({ c with
        list := list'
        cache := mapDelete c.cache node.key
        totalSize := c.totalSize - node.size } : LRUCache K V)).WF := by
  obtain ⟨hsplit, hl'⟩ := removeTail_eq_some hrt
  have hmem : node ∈ c.list.nodes := by
    rw [← hsplit]
    exact List.mem_append_right _ (List.mem_singleton.2 rfl)
  have hget : mapGet c.cache node.key = some node := h.mapGet_of_node_mem hmem
  have hknd := h.keyNodup
  have hnotdrop : node ∉ c.list.nodes.dropLast := by
    intro hin
    rw [← hsplit, List.map_append, List.map_singleton] at hknd
    rcases List.nodup_append.1 hknd with ⟨-, -, hdisj⟩
    exact hdisj (List.mem_map.2 ⟨node, hin, rfl⟩) (List.mem_singleton.2 rfl)
  have herase : c.list.nodes.erase node = c.list.nodes.dropLast := by
    rw [← hsplit, List.erase_append_right _ (by simpa using hnotdrop)]
    simp
  obtain ⟨hnd, hkc, hperm, hlen, hsum⟩ := h
  subst hl'
  refine ⟨?_, hkc.of_mapDelete, ?_, ?_, ?_⟩
  · rw [mapDelete_map_fst]
    exact hnd.erase _
  · rw [mapDelete_map_snd hkc hget]
    show List.Perm _ (c.list.nodes.dropLast)
    rw [← herase]
    exact hperm.erase node
  · show c.list.length - 1 = c.list.nodes.dropLast.length
    rw [← herase, List.length_erase_of_mem hmem, hlen]
  · show c.totalSize - node.size
      = (c.list.nodes.dropLast.map (fun x => x.size)).sum
    rw [← herase, sum_erase_of_mem hmem, hsum]

theorem wf_pruneLoopFuel [DecidableEq K] [DecidableEq V] :
    ∀ (fuel : Nat) {c : LRUCache K V},
      c.WF → ((LRUCache.pruneLoopFuel fuel c).1).WF := by
  intro fuel
  induction fuel with
  | zero =>
    intro c h
    exact h
  | succ fuel ih =>
    intro c h
    by_cases hcap : c.overCapacity
    · cases hrt : c.list.removeTail with
      | mk nodeOpt list' =>
        cases nodeOpt with
        | none =>
          simp only [LRUCache.pruneLoopFuel, hcap, if_true, hrt]
          exact h
        | some node =>
          simp only [LRUCache.pruneLoopFuel, hcap, if_true, hrt]
          exact ih (wf_pruneLoopFuel_step h hrt)
    · simp only [LRUCache.pruneLoopFuel, hcap, if_false, Bool.false_eq_true]
      exact h

theorem wf_prune [DecidableEq K] [DecidableEq V]
    {c : LRUCache K V} (h : c.WF) (now : Int) :
    ((c.prune now).1).WF :=
  wf_pruneLoopFuel _ (wf_pruneExpiredGo c.cache now h)

theorem wf_insert [DecidableEq K] [DecidableEq V]
    {c : LRUCache K V} (h : c.WF) {key : K} {node : Node K V}
    (hget : mapGet c.cache key = none) (hkey : node.key = key) :
    (({ c with
        list := c.list.addToFront node
        cache := mapSet c.cache key node
        totalSize := c.totalSize + node.size } : LRUCache K V)).WF := by
  have hnotmem : key ∉ c.cache.map Prod.fst := mapGet_eq_none_iff.1 hget
  obtain ⟨hnd, hkc, hperm, hlen, hsum⟩ := h
  rw [show mapSet c.cache key node = c.cache ++ [(key, node)] from
    mapSet_eq_append_of_not_mem node hnotmem]
  refine ⟨?_, hkc.append_single hkey, ?_, ?_, ?_⟩
  · rw [List.map_append, List.map_singleton]
    exact ((List.perm_append_singleton key _).nodup_iff).2
      (List.nodup_cons.2 ⟨hnotmem, hnd⟩)
  · rw [List.map_append, List.map_singleton]
    show List.Perm _ (node :: c.list.nodes)
    exact (List.perm_append_singleton node _).trans (hperm.cons node)
  · show c.list.length + 1 = (node :: c.list.nodes).length
    rw [List.length_cons, hlen]
  · show c.totalSize + node.size
      = ((node :: c.list.nodes).map (fun x => x.size)).sum
    rw [List.map_cons, List.sum_cons, hsum]
    omega

theorem wf_overwrite [DecidableEq K] [DecidableEq V]
    {c : LRUCache K V} (h : c.WF) {key : K} {ex node : Node K V}
    (hget : mapGet c.cache key = some ex) (hkey : node.key = key) :
    (({ c with
        list := (c.list.remove ex).addToFront node
        cache := mapSet c.cache key node
        totalSize := c.totalSize - ex.size + node.size } : LRUCache K V)).WF := by
  have hmem : ex ∈ c.list.nodes := h.node_mem hget
  obtain ⟨hnd, hkc, hperm, hlen, hsum⟩ := h
  have hlen1 : 1 ≤ c.list.nodes.length :=
    List.length_pos.2 (List.ne_nil_of_mem hmem)
  refine ⟨?_, hkc.of_mapSet hkey, ?_, ?_, ?_⟩
  · rw [mapSet_map_fst_of_mem node (List.mem_map.2
      ⟨(key, ex), mem_of_mapGet_eq_some hget, rfl⟩)]
    exact hnd
  · show List.Perm _ (node :: c.list.nodes.erase ex)
    exact (mapSet_map_snd_perm node hkc hget).trans
      ((hperm.erase ex).cons node)
  · show c.list.length - 1 + 1 = (node :: c.list.nodes.erase ex).length
    rw [List.length_cons, List.length_erase_of_mem hmem, hlen]
  · show c.totalSize - ex.size + node.size
      = ((node :: c.list.nodes.erase ex).map (fun x => x.size)).sum
    rw [List.map_cons, List.sum_cons, sum_erase_of_mem hmem, hsum]
    omega

theorem wf_set [DecidableEq K] [DecidableEq V]
    {c : LRUCache K V} (h : c.WF) (key : K) (value : V) (opts : ItemOptions)
    (now : Int) : ((c.set key value opts now).1).WF := by
  cases hget : mapGet c.cache key with
  | none =>
    simp only [LRUCache.set, hget]
    exact wf_prune (wf_insert h hget rfl) now
  | some ex =>
    simp only [LRUCache.set, hget]
    exact wf_prune (wf_overwrite h hget rfl) now

theorem has_state_eq [DecidableEq K] (c : LRUCache K V) (k : K) (now : Int) :
    (c.has k now).2 = c := by
  unfold LRUCache.has
  cases mapGet c.cache k with
  | none => rfl
  | some node =>
    by_cases hexp : expiryLt node.expiry now
    · simp only [hexp, if_true]
      by_cases hstale : !c.options.allowStale <;> simp [hstale]
    · simp only [hexp, if_false, Bool.false_eq_true]

theorem peek_state_eq [DecidableEq K] (c : LRUCache K V) (k : K) (now : Int) :
    (c.peek k now).2 = c := by
  unfold LRUCache.peek
  cases mapGet c.cache k with
  | none => rfl
  | some node =>
    by_cases hexp : expiryLt node.expiry now
    · simp only [hexp, if_true]
      by_cases hstale : !c.options.allowStale <;> simp [hstale]
    · simp only [hexp, if_false, Bool.false_eq_true]

theorem wf_deserializeGo [DecidableEq K] [DecidableEq V] :
    ∀ (data : List (K × V × ItemOptions)) {c : LRUCache K V} (now : Int),
      c.WF → ((deserializeGo c data now).1).WF := by
  intro data
  induction data with
  | nil =>
    intro c now h
    exact h
  | cons t rest ih =>
    intro c now h
    obtain ⟨key, value, opts⟩ := t
    simp only [deserializeGo]
    exact ih now (wf_set h key value opts now)

theorem wf_deserialize [DecidableEq K] [DecidableEq V]
    (c : LRUCache K V) (data : List (K × V × ItemOptions)) (now : Int) :
    ((c.deserialize data now).1).WF := by
  unfold LRUCache.deserialize
  exact wf_deserializeGo data now (wf_clear c)

/-! ### The configuration is never modified by any operation -/

theorem options_delete [DecidableEq K] [DecidableEq V] (c : LRUCache K V)
    (k : K) (reason : EvictionReason) :
    ((c.delete k reason).2.1).options = c.options := by
  cases hget : mapGet c.cache k with
  | none => rw [delete_eq_of_none reason hget]
  | some n => rw [delete_eq_of_some reason hget]

theorem options_pruneExpiredGo [DecidableEq K] [DecidableEq V] :
    ∀ (entries : List (K × Node K V)) (now : Int) (c : LRUCache K V),
      ((pruneExpiredGo entries now c).1).options = c.options := by
  intro entries
  induction entries with
  | nil =>
    intro now c
    rfl
  | cons p rest ih =>
    intro now c
    obtain ⟨key, node⟩ := p
    by_cases he : expiryLe node.expiry now
    · simp only [pruneExpiredGo, he, if_true]
      rw [ih, options_delete]
    · simp only [pruneExpiredGo, he, if_false, Bool.false_eq_true]
      exact ih now c

theorem options_pruneLoopFuel [DecidableEq K] [DecidableEq V] :
    ∀ (fuel : Nat) (c : LRUCache K V),
      ((LRUCache.pruneLoopFuel fuel c).1).options = c.options := by
  intro fuel
  induction fuel with
  | zero =>
    intro c
    rfl
  | succ fuel ih =>
    intro c
    by_cases hcap : c.overCapacity
    · cases hrt : c.list.removeTail with
      | mk nodeOpt list' =>
        cases nodeOpt with
        | none => simp only [LRUCache.pruneLoopFuel, hcap, if_true, hrt]
        | some node =>
          simp only [LRUCache.pruneLoopFuel, hcap, if_true, hrt]
          rw [ih]
    · simp only [LRUCache.pruneLoopFuel, hcap, if_false, Bool.false_eq_true]

theorem options_prune [DecidableEq K] [DecidableEq V] (c : LRUCache K V)
    (now : Int) : ((c.prune now).1).options = c.options := by
  unfold LRUCache.prune LRUCache.pruneLoop
  rw [options_pruneLoopFuel, options_pruneExpiredGo]

theorem options_set [DecidableEq K] [DecidableEq V] (c : LRUCache K V)
    (key : K) (value : V) (opts : ItemOptions) (now : Int) :
    ((c.set key value opts now).1).options = c.options := by
  cases hget : mapGet c.cache key with
  | none =>
    simp only [LRUCache.set, hget]
    rw [options_prune]
  | some ex =>
    simp only [LRUCache.set, hget]
    rw [options_prune]

/-! ### The capacity phase: count bound, fuel irrelevance, tail eviction -/

theorem overCapacity_count_le [DecidableEq K] [DecidableEq V]
    {c : LRUCache K V} {m : Nat} (hm : c.options.max = some m)
    (hcap : ¬ c.overCapacity = true) : c.cache.length ≤ m := by
  unfold LRUCache.overCapacity at hcap
  rw [hm] at hcap
  simp only [Bool.or_eq_true, decide_eq_true_eq, not_or] at hcap
  omega

theorem pruneLoopFuel_count_le [DecidableEq K] [DecidableEq V] :
    ∀ (fuel : Nat) {c : LRUCache K V} {m : Nat}, c.WF →
      c.options.max = some m → c.list.nodes.length + 1 ≤ fuel →
      ((LRUCache.pruneLoopFuel fuel c).1).cache.length ≤ m := by
  intro fuel
  induction fuel with
  | zero =>
    intro c m h hm hf
    omega
  | succ fuel ih =>
    intro c m h hm hf
    by_cases hcap : c.overCapacity
    · cases hrt : c.list.removeTail with
      | mk nodeOpt list' =>
        cases nodeOpt with
        | none =>
          simp only [LRUCache.pruneLoopFuel, hcap, if_true, hrt]
          have hnil := (removeTail_eq_none hrt).1
          have hcl := h.cacheLength
          rw [hnil] at hcl
          simp only [List.length_nil] at hcl
          omega
        | some node =>
          simp only [LRUCache.pruneLoopFuel, hcap, if_true, hrt]
          have hwf2 := wf_pruneLoopFuel_step h hrt
          have hsplit := (removeTail_eq_some hrt).1
          have hnodes : list'.nodes = c.list.nodes.dropLast := by
            rw [(removeTail_eq_some hrt).2]
          have hdrop : c.list.nodes.dropLast.length + 1
              = c.list.nodes.length := by
            have hlc := congrArg List.length hsplit
            simp only [List.length_append, List.length_cons,
              List.length_nil] at hlc
            omega
          apply ih hwf2 hm
          show list'.nodes.length + 1 ≤ fuel
          rw [hnodes]
          omega
    · simp only [LRUCache.pruneLoopFuel, hcap, if_false, Bool.false_eq_true]
      exact overCapacity_count_le hm hcap

theorem pruneLoopFuel_fuel_irrelevant [DecidableEq K] [DecidableEq V] :
    ∀ (fuel : Nat) {c : LRUCache K V}, c.list.nodes.length + 1 ≤ fuel →
      LRUCache.pruneLoopFuel fuel c
        = LRUCache.pruneLoopFuel (c.list.nodes.length + 1) c := by
  intro fuel
  induction fuel with
  | zero =>
    intro c hf
    omega
  | succ fuel ih =>
    intro c hf
    by_cases hend : c.list.nodes.length + 1 = fuel + 1
    · rw [hend]
    · have hlt : c.list.nodes.length + 1 ≤ fuel := by omega
      by_cases hcap : c.overCapacity
      · cases hrt : c.list.removeTail with
        | mk nodeOpt list' =>
          cases nodeOpt with
          | none =>
            simp only [LRUCache.pruneLoopFuel, hcap, if_true, hrt]
          | some node =>
            have hsplit := (removeTail_eq_some hrt).1
            have hnodes : list'.nodes = c.list.nodes.dropLast := by
              rw [(removeTail_eq_some hrt).2]
            have hdrop : c.list.nodes.dropLast.length + 1
                = c.list.nodes.length := by
              have hlc := congrArg List.length hsplit
              simp only [List.length_append, List.length_cons,
                List.length_nil] at hlc
              omega
            have hlen : list'.nodes.length + 1 = c.list.nodes.length := by
              rw [hnodes]
              exact hdrop
            have e1 : LRUCache.pruneLoopFuel fuel
                (⟨c.options, mapDelete c.cache node.key, list',
                  c.totalSize - node.size, c.hits, c.misses⟩ : LRUCache K V)
                = LRUCache.pruneLoopFuel c.list.nodes.length
                  (⟨c.options, mapDelete c.cache node.key, list',
                    c.totalSize - node.size, c.hits, c.misses⟩ :
                      LRUCache K V) := by
              rw [ih (show list'.nodes.length + 1 ≤ fuel by omega)]
              simp only [hlen]
            simp only [LRUCache.pruneLoopFuel, hcap, if_true, hrt]
            rw [e1]
      · simp only [LRUCache.pruneLoopFuel, hcap, if_false, Bool.false_eq_true]

theorem pruneLoopFuel_nodes_take [DecidableEq K] [DecidableEq V] :
    ∀ (fuel : Nat) (c : LRUCache K V),
      ∃ rest, ((LRUCache.pruneLoopFuel fuel c).1).list.nodes ++ rest
        = c.list.nodes := by
  intro fuel
  induction fuel with
  | zero =>
    intro c
    exact ⟨[], List.append_nil _⟩
  | succ fuel ih =>
    intro c
    by_cases hcap : c.overCapacity
    · cases hrt : c.list.removeTail with
      | mk nodeOpt list' =>
        cases nodeOpt with
        | none =>
          simp only [LRUCache.pruneLoopFuel, hcap, if_true, hrt]
          exact ⟨[], List.append_nil _⟩
        | some node =>
          simp only [LRUCache.pruneLoopFuel, hcap, if_true, hrt]
          obtain ⟨rest, hrest⟩ :=
            ih ⟨c.options, mapDelete c.cache node.key, list',
              c.totalSize - node.size, c.hits, c.misses⟩
          refine ⟨rest ++ [node], ?_⟩
          have hsplit := (removeTail_eq_some hrt).1
          have hnodes : list'.nodes = c.list.nodes.dropLast := by
            rw [(removeTail_eq_some hrt).2]
          rw [← List.append_assoc, hrest]
          show list'.nodes ++ [node] = c.list.nodes
          rw [hnodes]
          exact hsplit
    · simp only [LRUCache.pruneLoopFuel, hcap, if_false, Bool.false_eq_true]
      exact ⟨[], List.append_nil _⟩

theorem prune_count_le [DecidableEq K] [DecidableEq V]
    {c : LRUCache K V} {m : Nat} (h : c.WF) (hm : c.options.max = some m)
    (now : Int) : ((c.prune now).1).cache.length ≤ m := by
  unfold LRUCache.prune LRUCache.pruneLoop
  exact pruneLoopFuel_count_le _ (wf_pruneExpiredGo c.cache now h)
    (by rw [options_pruneExpiredGo]; exact hm) (le_refl _)

theorem set_count_le [DecidableEq K] [DecidableEq V]
    {c : LRUCache K V} {m : Nat} (h : c.WF) (hm : c.options.max = some m)
    (key : K) (value : V) (opts : ItemOptions) (now : Int) :
    ((c.set key value opts now).1).size ≤ m := by
  cases hget : mapGet c.cache key with
  | none =>
    simp only [LRUCache.set, hget]
    exact prune_count_le (wf_insert h hget rfl) hm now
  | some ex =>
    simp only [LRUCache.set, hget]
    exact prune_count_le (wf_overwrite h hget rfl) hm now

/-! ### Inserting non-expired entries into an unbounded cache -/

theorem expiryLe_fresh (t now : Int) :
    expiryLe (if t > 0 then some (now + t) else none) now = false := by
  by_cases h : t > 0
  · simp only [h, if_true, expiryLe, decide_eq_false_iff_not, not_le]
    omega
  · simp only [h, if_false, expiryLe]

theorem setNode_fresh (o : Options K V) (key : K) (value : V)
    (opts : ItemOptions) (now : Int) :
    expiryLe (setNode o key value opts now).expiry now = false := by
  simp only [setNode]
  exact expiryLe_fresh _ now

theorem pruneExpiredGo_no_expired [DecidableEq K] [DecidableEq V] :
    ∀ (entries : List (K × Node K V)) (now : Int) (c : LRUCache K V),
      (∀ p ∈ entries, expiryLe p.2.expiry now = false) →
      pruneExpiredGo entries now c = (c, [], 0) := by
  intro entries
  induction entries with
  | nil =>
    intro now c _
    rfl
  | cons p rest ih =>
    intro now c h
    obtain ⟨key, node⟩ := p
    have he : expiryLe node.expiry now = false :=
      h (key, node) (List.mem_cons_self _ _)
    simp only [pruneExpiredGo, he, Bool.false_eq_true, if_false]
    exact ih now c (fun q hq => h q (List.mem_cons_of_mem _ hq))

theorem overCapacity_unbounded {c : LRUCache K V}
    (h1 : c.options.max = none) (h2 : c.options.maxSize = none) :
    c.overCapacity = false := by
  unfold LRUCache.overCapacity
  rw [h1, h2]
  rfl

theorem pruneLoopFuel_no_op [DecidableEq K] [DecidableEq V] (fuel : Nat)
    {c : LRUCache K V} (hcap : c.overCapacity = false) :
    LRUCache.pruneLoopFuel fuel c = (c, [], 0) := by
  cases fuel with
  | zero => rfl
  | succ fuel =>
    simp only [LRUCache.pruneLoopFuel, hcap, Bool.false_eq_true, if_false]

theorem prune_no_op [DecidableEq K] [DecidableEq V] {c : LRUCache K V}
    {now : Int} (hexp : ∀ p ∈ c.cache, expiryLe p.2.expiry now = false)
    (hmax : c.options.max = none) (hms : c.options.maxSize = none) :
    c.prune now = (c, [], 0) := by
  have h1 := pruneExpiredGo_no_expired c.cache now c hexp
  have h2 := pruneLoopFuel_no_op (c.list.nodes.length + 1)
    (overCapacity_unbounded hmax hms)
  simp only [LRUCache.prune, LRUCache.pruneLoop, h1, h2, List.nil_append,
    Nat.add_zero, Nat.zero_add]

theorem set_fresh_eq [DecidableEq K] [DecidableEq V] {c : LRUCache K V}
    {key : K} (value : V) (opts : ItemOptions) (now : Int)
    (hget : mapGet c.cache key = none)
    (hmax : c.options.max = none) (hms : c.options.maxSize = none)
    (hfresh : ∀ p ∈ c.cache, expiryLe p.2.expiry now = false) :
    c.set key value opts now =
      (⟨c.options, c.cache ++ [(key, setNode c.options key value opts now)],
        c.list.addToFront (setNode c.options key value opts now),
        c.totalSize + (setNode c.options key value opts now).size,
        c.hits, c.misses⟩, []) := by
  have hprune : ((⟨c.options,
      c.cache ++ [(key, setNode c.options key value opts now)],
      c.list.addToFront (setNode c.options key value opts now),
      c.totalSize + (setNode c.options key value opts now).size,
      c.hits, c.misses⟩ : LRUCache K V)).prune now
      = (⟨c.options,
          c.cache ++ [(key, setNode c.options key value opts now)],
          c.list.addToFront (setNode c.options key value opts now),
          c.totalSize + (setNode c.options key value opts now).size,
          c.hits, c.misses⟩, [], 0) := by
    refine prune_no_op ?_ ?_ ?_
    · intro p hp
      rcases List.mem_append.1 hp with h₁ | h₁
      · exact hfresh p h₁
      · rw [List.mem_singleton] at h₁
        subst h₁
        exact setNode_fresh c.options key value opts now
    · exact hmax
    · exact hms
  simp only [setNode] at hprune ⊢
  simp only [LRUCache.set, hget,
    mapSet_eq_append_of_not_mem _ (mapGet_eq_none_iff.1 hget), hprune,
    List.nil_append]

theorem deserializeGo_cache_eq [DecidableEq K] [DecidableEq V] :
    ∀ (data : List (K × V × ItemOptions)) (c : LRUCache K V) (now : Int),
      c.options.max = none → c.options.maxSize = none →
      (∀ p ∈ c.cache, expiryLe p.2.expiry now = false) →
      (∀ t ∈ data, mapGet c.cache t.1 = none) →
      (data.map Prod.fst).Nodup →
      ((deserializeGo c data now).1).cache
        = c.cache ++ data.map
            (fun t => (t.1, setNode c.options t.1 t.2.1 t.2.2 now)) := by
  intro data
  induction data with
  | nil =>
    intro c now _ _ _ _ _
    simp [deserializeGo]
  | cons t rest ih =>
    intro c now hmax hms hfresh hkeys hnd
    obtain ⟨key, value, opts⟩ := t
    have hget : mapGet c.cache key = none :=
      hkeys (key, value, opts) (List.mem_cons_self _ _)
    simp only [deserializeGo]
    rw [set_fresh_eq value opts now hget hmax hms hfresh]
    have hkeyrest : key ∉ rest.map Prod.fst := by
      have : (key :: rest.map Prod.fst).Nodup := by
        simpa using hnd
      exact (List.nodup_cons.1 this).1
    rw [ih ⟨c.options,
        c.cache ++ [(key, setNode c.options key value opts now)],
        c.list.addToFront (setNode c.options key value opts now),
        c.totalSize + (setNode c.options key value opts now).size,
        c.hits, c.misses⟩ now hmax hms ?hfr ?hk ?hn]
    case hfr =>
      intro p hp
      rcases List.mem_append.1 hp with h₁ | h₁
      · exact hfresh p h₁
      · rw [List.mem_singleton] at h₁
        subst h₁
        exact setNode_fresh c.options key value opts now
    case hk =>
      intro u hu
      show mapGet (c.cache ++ [(key, setNode c.options key value opts now)])
        u.1 = none
      rw [mapGet_eq_none_iff, List.map_append, List.map_singleton]
      intro hmem
      rcases List.mem_append.1 hmem with h₁ | h₁
      · have : mapGet c.cache u.1 = none := hkeys u (List.mem_cons_of_mem _ hu)
        exact (mapGet_eq_none_iff.1 this) h₁
      · rw [List.mem_singleton] at h₁
        have h₂ : u.1 = key := h₁
        exact hkeyrest (h₂ ▸ List.mem_map.2 ⟨u, hu, rfl⟩)
    case hn =>
      have : (key :: rest.map Prod.fst).Nodup := by
        simpa using hnd
      exact (List.nodup_cons.1 this).2
    show c.cache ++ [(key, setNode c.options key value opts now)]
        ++ rest.map (fun t => (t.1, setNode c.options t.1 t.2.1 t.2.2 now))
      = c.cache ++ ((key, setNode c.options key value opts now)
          :: rest.map (fun t => (t.1, setNode c.options t.1 t.2.1 t.2.2 now)))
    rw [List.append_assoc, List.singleton_append]

/-! ### What serialize emits -/

theorem serializeGo_fst_sublist (s : Bool) (now : Int) :
    ∀ entries : List (K × Node K V),
      List.Sublist ((serializeGo s now entries).map Prod.fst)
        (entries.map Prod.fst) := by
  intro entries
  induction entries with
  | nil => simp [serializeGo]
  | cons p rest ih =>
    obtain ⟨key, node⟩ := p
    cases hexp : node.expiry with
    | none =>
      simp only [serializeGo, hexp, List.map_cons]
      exact ih.cons₂ key
    | some e =>
      by_cases ht : e - now > 0
      · simp only [serializeGo, hexp, ht, if_true, List.map_cons]
        exact ih.cons₂ key
      · cases s with
        | true =>
          simp only [serializeGo, hexp, ht, if_false, Bool.not_true,
            Bool.false_eq_true, List.map_cons]
          exact ih.cons₂ key
        | false =>
          simp only [serializeGo, hexp, ht, if_false, Bool.not_false,
            if_true, Bool.false_eq_true, List.map_cons]
          exact ih.cons key

theorem expiryLe_none (now : Int) : expiryLe none now = false := rfl

theorem serializeGo_false_roundTrip [DecidableEq K] [DecidableEq V]
    (o2 : Options K V) (ho2 : o2.ttl ≤ 0) :
    ∀ (entries : List (K × Node K V)) (now : Int), KeyConsistent entries →
      (serializeGo false now entries).map
          (fun t => (t.1, setNode o2 t.1 t.2.1 t.2.2 now))
        = entries.filter (fun p => !expiryLe p.2.expiry now) := by
  intro entries
  induction entries with
  | nil =>
    intro now _
    rfl
  | cons p rest ih =>
    intro now hkc
    obtain ⟨key, node⟩ := p
    have hkey : node.key = key := hkc (key, node) (List.mem_cons_self _ _)
    obtain ⟨nk, nv, ns, ne⟩ := node
    simp only at hkey
    subst hkey
    cases ne with
    | none =>
      have hnode : setNode o2 nk nv { ttl := none, size := some ns } now
          = ⟨nk, nv, ns, none⟩ := by
        simp only [setNode, Option.getD_some, Option.getD_none]
        rw [if_neg (by omega)]
      simp only [serializeGo, List.map_cons, List.filter_cons, expiryLe_none,
        Bool.not_false, if_true]
      rw [ih now hkc.tail, hnode]
    | some e =>
      by_cases ht : e - now > 0
      · have hle : (!expiryLe (some e) now) = true := by
          simp only [expiryLe, Bool.not_eq_true', decide_eq_false_iff_not,
            not_le]
          omega
        have hnode : setNode o2 nk nv
            { ttl := some (e - now), size := some ns } now
            = ⟨nk, nv, ns, some e⟩ := by
          simp only [setNode, Option.getD_some]
          rw [if_pos ht]
          have he : now + (e - now) = e := by omega
          rw [he]
        simp only [serializeGo, ht, if_true, List.map_cons, List.filter_cons,
          hle]
        rw [ih now hkc.tail, hnode]
      · have hle : (!expiryLe (some e) now) = false := by
          simp only [expiryLe, Bool.not_eq_false', decide_eq_true_eq]
          omega
        simp only [serializeGo, ht, if_false, Bool.not_false, if_true,
          List.filter_cons, hle, Bool.false_eq_true]
        exact ih now hkc.tail

theorem round_trip_filter [DecidableEq K] [DecidableEq V]
    (c : LRUCache K V) (now : Int) (o2 : Options K V)
    (h : c.WF) (hstale : c.options.allowStale = false)
    (hmax : o2.max = none) (hms : o2.maxSize = none) (ht : o2.ttl ≤ 0) :
    (((emptyCache o2).deserialize (c.serialize now) now).1).cache
      = c.cache.filter (fun p => !expiryLe p.2.expiry now) := by
  have hsub : ((c.serialize now).map Prod.fst).Nodup := by
    have hs := serializeGo_fst_sublist c.options.allowStale now c.cache
    exact hs.nodup h.1
  have hd := deserializeGo_cache_eq (c.serialize now) (emptyCache o2) now
    hmax hms
    (by
      intro p hp
      exact absurd hp (List.not_mem_nil _))
    (fun t _ => rfl) hsub
  unfold LRUCache.deserialize
  show ((deserializeGo (emptyCache o2) (c.serialize now) now).1).cache = _
  rw [hd]
  show [] ++ (c.serialize now).map
      (fun t => (t.1, setNode o2 t.1 t.2.1 t.2.2 now)) = _
  rw [List.nil_append]
  unfold LRUCache.serialize
  rw [hstale]
  exact serializeGo_false_roundTrip o2 ht c.cache now h.2.1

/-! ### Where disposal callbacks fire relative to detachment -/

theorem flatten_map_singleton {α β : Type} (l : List α) (f : α → β) :
    (l.map (fun x => [f x])).flatten = l.map f := by
  induction l with
  | nil => rfl
  | cons a l ih => simp [ih]

theorem mapGet_isSome_of_mem [DecidableEq K] {β : Type} {m : List (K × β)}
    {p : K × β} (hp : p ∈ m) : (mapGet m p.1).isSome = true := by
  cases hg : mapGet m p.1 with
  | some v => rfl
  | none => exact absurd (List.mem_map.2 ⟨p, hp, rfl⟩) (mapGet_eq_none_iff.1 hg)

theorem delete_events [DecidableEq K] [DecidableEq V] {c : LRUCache K V}
    {k : K} {n : Node K V} (h : c.WF) (hget : mapGet c.cache k = some n)
    (reason : EvictionReason) :
    (c.delete k reason).2.2
      = if c.options.dispose then
          [⟨k, n.value, reason, true, true⟩] else [] := by
  rw [delete_eq_of_some reason hget]
  have hkey : n.key = k := h.2.1 (k, n) (mem_of_mapGet_eq_some hget)
  have hmem : n ∈ c.list.nodes := h.node_mem hget
  show c.disposeItem n.key n.value reason = _
  unfold LRUCache.disposeItem
  by_cases hd : c.options.dispose
  · simp only [hd, if_true]
    rw [hkey]
    have hidx : (mapGet c.cache k).isSome = true := by rw [hget]; rfl
    have hlst : c.list.nodes.any (fun x => x.key == k) = true :=
      List.any_eq_true.2 ⟨n, hmem, by simp [hkey]⟩
    rw [hidx, hlst]
  · simp [hd]

theorem clear_events [DecidableEq K] [DecidableEq V] {c : LRUCache K V}
    (h : c.WF) (hd : c.options.dispose = true) :
    (c.clear).2 = c.cache.map
      (fun p => ⟨p.1, p.2.value, .CACHE_CLEAR, true, true⟩) := by
  show (if c.options.dispose then
      (c.cache.map (fun p => c.disposeItem p.1 p.2.value .CACHE_CLEAR)).flatten
    else []) = _
  rw [hd, if_pos rfl]
  have hmap : c.cache.map (fun p => c.disposeItem p.1 p.2.value .CACHE_CLEAR)
      = c.cache.map (fun p =>
          [(⟨p.1, p.2.value, .CACHE_CLEAR, true, true⟩ : DisposeEvent K V)]) := by
    apply List.map_congr_left
    intro p hp
    unfold LRUCache.disposeItem
    rw [hd, if_pos rfl]
    have hidx : (mapGet c.cache p.1).isSome = true := mapGet_isSome_of_mem hp
    have hpm : p.2 ∈ c.list.nodes :=
      h.2.2.1.mem_iff.1 (List.mem_map.2 ⟨p, hp, rfl⟩)
    have hlst : c.list.nodes.any (fun x => x.key == p.1) = true :=
      List.any_eq_true.2 ⟨p.2, hpm, by simp [h.2.1 p hp]⟩
    rw [hidx, hlst]
  rw [hmap, flatten_map_singleton]

theorem pruneLoopFuel_events_detached [DecidableEq K] [DecidableEq V] :
    ∀ (fuel : Nat) {c : LRUCache K V}, c.WF →
      ∀ ev ∈ (LRUCache.pruneLoopFuel fuel c).2.1,
        ev.inIndex = false ∧ ev.inList = false ∧ ev.reason = .EVICTED := by
  intro fuel
  induction fuel with
  | zero =>
    intro c h ev hev
    exact absurd hev (List.not_mem_nil _)
  | succ fuel ih =>
    intro c h ev hev
    by_cases hcap : c.overCapacity
    · cases hrt : c.list.removeTail with
      | mk nodeOpt list' =>
        cases nodeOpt with
        | none =>
          simp only [LRUCache.pruneLoopFuel, hcap, if_true, hrt] at hev
          exact absurd hev (List.not_mem_nil _)
        | some node =>
          simp only [LRUCache.pruneLoopFuel, hcap, if_true, hrt] at hev
          rw [List.mem_append] at hev
          rcases hev with hev | hev
          · have hsplit := (removeTail_eq_some hrt).1
            have hnodes : list'.nodes = c.list.nodes.dropLast := by
              rw [(removeTail_eq_some hrt).2]
            have hmem : node ∈ c.list.nodes := by
              rw [← hsplit]
              exact List.mem_append_right _ (List.mem_singleton.2 rfl)
            have hknd := h.keyNodup
            have hnokey : node.key ∉
                c.list.nodes.dropLast.map (fun x => x.key) := by
              rw [← hsplit, List.map_append, List.map_singleton] at hknd
              rcases List.nodup_append.1 hknd with ⟨-, -, hdisj⟩
              intro hin
              exact hdisj hin (List.mem_singleton.2 rfl)
            have hidx : (mapGet (mapDelete c.cache node.key)
                node.key).isSome = false := by
              rw [mapGet_mapDelete_self h.1]
              rfl
            have hlst : list'.nodes.any
                (fun x => x.key == node.key) = false := by
              rw [hnodes]
              rw [List.any_eq_false]
              intro x hx
              simp only [beq_iff_eq]
              intro he
              exact hnokey (he ▸ List.mem_map.2 ⟨x, hx, rfl⟩)
            revert hev
            show ev ∈ (if ((⟨c.options, mapDelete c.cache node.key, list',
                c.totalSize, c.hits, c.misses⟩ : LRUCache K V)).options.dispose
                then _ else []) → _
            by_cases hd : c.options.dispose
            · rw [if_pos hd]
              intro hev
              rw [List.mem_singleton] at hev
              subst hev
              exact ⟨hidx, hlst, rfl⟩
            · rw [if_neg hd]
              intro hev
              exact absurd hev (List.not_mem_nil _)
          · exact ih (wf_pruneLoopFuel_step h hrt) ev hev
    · simp only [LRUCache.pruneLoopFuel, hcap, Bool.false_eq_true,
        if_false] at hev
      exact absurd hev (List.not_mem_nil _)

/-! ### Remaining helper facts -/

theorem LRUCache.WF.totalSize_eq [DecidableEq K] [DecidableEq V]
    {c : LRUCache K V} (h : c.WF) : c.totalSize = totalSizeRecompute c := by
  obtain ⟨-, -, hperm, -, hsum⟩ := h
  rw [hsum, totalSizeRecompute]
  have hs := (hperm.map (fun n => n.size)).sum_eq
  rw [List.map_map] at hs
  rw [← hs]
  congr 1

theorem pruneLoop_single_oversized [DecidableEq K] [DecidableEq V]
    (o : Options K V) (n : Node K V) (S : Int) (hits misses : Nat)
    (hms : o.maxSize = some S) (hS : S < n.size) :
    (LRUCache.pruneLoop
        ⟨o, [(n.key, n)], ⟨[n], 1⟩, n.size, hits, misses⟩).1.cache = [] ∧
    (LRUCache.pruneLoop
        ⟨o, [(n.key, n)], ⟨[n], 1⟩, n.size, hits, misses⟩).1.list.nodes = [] ∧
    (LRUCache.pruneLoop
        ⟨o, [(n.key, n)], ⟨[n], 1⟩, n.size, hits, misses⟩).2.2 = 1 := by
  have hcap : ((⟨o, [(n.key, n)], ⟨[n], 1⟩, n.size, hits, misses⟩ :
      LRUCache K V)).overCapacity = true := by
    show ((match o.max with
        | some m => decide ([(n.key, n)].length > m)
        | none => false) ||
      (match o.maxSize with
        | some s => decide (n.size > s)
        | none => false)) = true
    simp only [hms]
    have hdec : decide (n.size > S) = true := decide_eq_true hS
    rw [hdec, Bool.or_true]
  have hrt : ((⟨[n], 1⟩ : DoublyLinkedList K V)).removeTail
      = (some n, ⟨[], 0⟩) := rfl
  have hdel : mapDelete [(n.key, n)] n.key = ([] : List (K × Node K V)) := by
    simp [mapDelete]
  have hrt2 : ((⟨[], 0⟩ : DoublyLinkedList K V)).removeTail
      = (none, ⟨[], 0⟩) := rfl
  unfold LRUCache.pruneLoop
  simp only [List.length_cons, List.length_nil, Nat.zero_add]
  simp [LRUCache.pruneLoopFuel, hcap, hrt, hdel, hrt2, ite_self]

/-! ### The claims -/

/-- C1, counterexample: the claim says a single entry whose size exceeds
`maxSize` remains alone in the cache after `set`.  The code disagrees: with
`maxSize = 10`, after `set(1, 7)` with item size 20 the key is gone, the
cache is empty, and an EVICTED disposal fired (after detachment). -/
theorem c1_counterexample :
    mapGet ((emptyCache exOptsSize).set 1 7
        { ttl := none, size := some 20 } 0).1.cache 1 = none ∧
    ((emptyCache exOptsSize).set 1 7
        { ttl := none, size := some 20 } 0).1.size = 0 ∧
    ((emptyCache exOptsSize).set 1 7 { ttl := none, size := some 20 } 0).2
      = [⟨1, 7, .EVICTED, false, false⟩] := by
  decide

/-- C1 (amended): when the cache's only entry has size strictly greater than
`maxTotalSize`, the capacity phase of `prune` does not stop in front of it —
it evicts the oversized entry (exactly one removal) and stops only because
the cache became empty; in particular, after `set` of one item whose size
exceeds `maxSize`, the cache is empty. -/
theorem c1_amended_oversized_evicted :
    (∀ (K V : Type) [DecidableEq K] [DecidableEq V] (o : Options K V)
        (n : Node K V) (S : Int) (hits misses : Nat),
      o.maxSize = some S → S < n.size →
        (LRUCache.pruneLoop
            ⟨o, [(n.key, n)], ⟨[n], 1⟩, n.size, hits, misses⟩).1.cache = []
        ∧ (LRUCache.pruneLoop
            ⟨o, [(n.key, n)], ⟨[n], 1⟩, n.size, hits, misses⟩).1.list.nodes
            = []
        ∧ (LRUCache.pruneLoop
            ⟨o, [(n.key, n)], ⟨[n], 1⟩, n.size, hits, misses⟩).2.2 = 1) ∧
    ((emptyCache exOptsSize).set 1 7
        { ttl := none, size := some 20 } 0).1.cache = [] := by
  constructor
  · intro K V _ _ o n S hits misses hms hS
    exact pruneLoop_single_oversized o n S hits misses hms hS
  · decide

/-- Witness for `c1_amended_oversized_evicted` at a concrete input. -/
theorem c1_amended_oversized_evicted_witness :
    exOptsSize.maxSize = some 10 ∧ (10 : Int) < (20 : Int) ∧
    (LRUCache.pruneLoop
        (⟨exOptsSize, [(3, ⟨3, 4, 20, none⟩)], ⟨[⟨3, 4, 20, none⟩], 1⟩,
          20, 0, 0⟩ : LRUCache Nat Nat)).1.cache = [] :=
  ⟨rfl, by decide,
    (c1_amended_oversized_evicted.1 Nat Nat exOptsSize ⟨3, 4, 20, none⟩ 10 0 0
      rfl (by decide)).1⟩

/-- C2, counterexample: the claim says every entry is already detached from
the key index and the recency list when its disposal callback is invoked.
A plain `delete` dispatches its disposal while the entry is still present in
both structures. -/
theorem c2_counterexample :
    (exCacheTtl.delete 5 .DELETED).2.2
      = [⟨5, 9, .DELETED, true, true⟩] ∧
    ((exCacheTtl.delete 5 .DELETED).2.2.all
        (fun ev => !ev.inIndex && !ev.inList)) = false := by
  decide

/-- C2 (amended): in `delete` (hence also in the expiry phase of `prune`,
which removes through `delete`) and in `clear`, the disposal callback fires
while the entry is still attached to both the index and the recency list;
only the capacity phase of `prune` detaches the entry from both structures
before dispatching its EVICTED disposal. -/
theorem c2_amended_dispose_attachment :
    (∀ (K V : Type) [DecidableEq K] [DecidableEq V] (c : LRUCache K V)
        (k : K) (n : Node K V) (reason : EvictionReason), c.WF →
      mapGet c.cache k = some n →
        (c.delete k reason).2.2
          = if c.options.dispose then [⟨k, n.value, reason, true, true⟩]
            else []) ∧
    (∀ (K V : Type) [DecidableEq K] [DecidableEq V] (c : LRUCache K V),
      c.WF → c.options.dispose = true →
        (c.clear).2 = c.cache.map
          (fun p => ⟨p.1, p.2.value, .CACHE_CLEAR, true, true⟩)) ∧
    (∀ (K V : Type) [DecidableEq K] [DecidableEq V] (fuel : Nat)
        (c : LRUCache K V), c.WF →
      ∀ ev ∈ (LRUCache.pruneLoopFuel fuel c).2.1,
        ev.inIndex = false ∧ ev.inList = false ∧ ev.reason = .EVICTED) := by
  refine ⟨?_, ?_, ?_⟩
  · intro K V _ _ c k n reason h hget
    exact delete_events h hget reason
  · intro K V _ _ c h hd
    exact clear_events h hd
  · intro K V _ _ fuel c h
    exact pruneLoopFuel_events_detached fuel h

/-- Witness for `c2_amended_dispose_attachment` at a concrete input. -/
theorem c2_amended_dispose_attachment_witness :
    exCacheTtl.WF ∧
    (exCacheTtl.delete 5 .DELETED).2.2 = [⟨5, 9, .DELETED, true, true⟩] ∧
    (exCacheTtl.clear).2 = [⟨5, 9, .CACHE_CLEAR, true, true⟩] := by
  refine ⟨by decide, ?_, ?_⟩
  · have h := c2_amended_dispose_attachment.1 Nat Nat exCacheTtl 5
      ⟨5, 9, 1, some 1000⟩ .DELETED (by decide) (by decide)
    rw [h]
    decide
  · have h := c2_amended_dispose_attachment.2.1 Nat Nat exCacheTtl
      (by decide) (by decide)
    rw [h]
    decide

/-- C3, counterexample: the claim includes the boundary case `now = expiry`.
With `allowStale` disabled and an entry whose expiry equals the current
time, `get` does not remove the entry, does not count a miss, and still
returns the value — the code's freshness test in `get` is strict
(`expiry < now`), unlike `prune`'s (`expiry <= now`). -/
theorem c3_counterexample :
    (exCacheTtl.get 5 1000).1 = some 9 ∧
    (exCacheTtl.get 5 1000).2.1.hits = 1 ∧
    (exCacheTtl.get 5 1000).2.1.misses = 0 ∧
    mapGet (exCacheTtl.get 5 1000).2.1.cache 5
      = some ⟨5, 9, 1, some 1000⟩ := by
  decide

/-- C3 (amended): for `now` strictly greater than the expiry, with
`allowStale` disabled, `get` returns absent, increments `misses`, removes
the entry from the index, and the disposal callback (when configured) fires
with reason EXPIRED. -/
theorem c3_amended_expired_get {K V : Type} [DecidableEq K] [DecidableEq V]
    (c : LRUCache K V) (k : K) (n : Node K V) (e now : Int)
    (h : c.WF) (hget : mapGet c.cache k = some n) (hexp : n.expiry = some e)
    (hlt : e < now) (hstale : c.options.allowStale = false) :
    (c.get k now).1 = none ∧
    (c.get k now).2.1.misses = c.misses + 1 ∧
    mapGet (c.get k now).2.1.cache k = none ∧
    (c.get k now).2.2
      = if c.options.dispose then [⟨k, n.value, .EXPIRED, true, true⟩]
        else [] := by
  have hx : expiryLt n.expiry now = true := by
    rw [hexp]
    simp only [expiryLt, decide_eq_true_eq]
    exact hlt
  simp only [LRUCache.get, hget, hx, if_true, hstale, Bool.false_eq_true,
    if_false]
  refine ⟨trivial, ?_, ?_, ?_⟩
  · rw [delete_eq_of_some .EXPIRED hget]
  · rw [delete_eq_of_some .EXPIRED hget]
    show mapGet (mapDelete c.cache k) k = none
    exact mapGet_mapDelete_self h.1 k
  · exact delete_events h hget .EXPIRED

/-- Witness for `c3_amended_expired_get` at a concrete input. -/
theorem c3_amended_expired_get_witness :
    exCacheTtl.WF ∧
    (exCacheTtl.get 5 1001).1 = none ∧
    (exCacheTtl.get 5 1001).2.1.misses = exCacheTtl.misses + 1 ∧
    mapGet (exCacheTtl.get 5 1001).2.1.cache 5 = none := by
  have h := c3_amended_expired_get exCacheTtl 5 ⟨5, 9, 1, some 1000⟩ 1000 1001
    (by decide) (by decide) rfl (by decide) (by decide)
  exact ⟨by decide, h.1, h.2.1, h.2.2.1⟩

/-- C4 (confirmed): after every public operation the `size` accessor, the
key index cardinality, and the recency list length (both the maintained
counter and the actual number of nodes) agree, and no entry appears twice in
the list.  `has`, `peek` and `serialize` leave the state unchanged (see also
C9), so their post-state is covered by the `sizeInv c` conjunct and the
`has`/`peek` conjuncts below. -/
theorem c4_size_invariants {K V : Type} [DecidableEq K] [DecidableEq V]
    (c : LRUCache K V) (h : c.WF) :
    sizeInv c ∧
    (∀ k now, sizeInv ((c.get k now).2.1)) ∧
    (∀ k now, sizeInv ((c.has k now).2)) ∧
    (∀ k now, sizeInv ((c.peek k now).2)) ∧
    (∀ k v opts now, sizeInv ((c.set k v opts now).1)) ∧
    (∀ k reason, sizeInv ((c.delete k reason).2.1)) ∧
    sizeInv ((c.clear).1) ∧
    (∀ now, sizeInv ((c.prune now).1)) ∧
    (∀ data now, sizeInv ((c.deserialize data now).1)) := by
  refine ⟨h.sizeInv, ?_, ?_, ?_, ?_, ?_, (wf_clear c).sizeInv, ?_, ?_⟩
  · intro k now
    exact (wf_get h k now).sizeInv
  · intro k now
    rw [has_state_eq]
    exact h.sizeInv
  · intro k now
    rw [peek_state_eq]
    exact h.sizeInv
  · intro k v opts now
    exact (wf_set h k v opts now).sizeInv
  · intro k reason
    exact (wf_delete h k reason).sizeInv
  · intro now
    exact (wf_prune h now).sizeInv
  · intro data now
    exact (wf_deserialize c data now).sizeInv

/-- Witness for `c4_size_invariants` at a concrete input. -/
theorem c4_size_invariants_witness :
    exCacheTtl.WF ∧
    sizeInv ((exCacheTtl.set 7 8 { ttl := none, size := none } 0).1) :=
  ⟨by decide, (c4_size_invariants exCacheTtl (by decide)).2.2.2.2.1
    7 8 { ttl := none, size := none } 0⟩

/-- C5 (confirmed): after every public operation the incrementally
maintained `totalSize` equals a full recomputation (the sum of the `size`
fields of all entries held in the key index).  `has`, `peek` and `serialize`
leave the state unchanged, so their post-state is covered by the first
conjunct and the `has`/`peek` conjuncts. -/
theorem c5_totalSize_invariant {K V : Type} [DecidableEq K] [DecidableEq V]
    (c : LRUCache K V) (h : c.WF) :
    c.totalSize = totalSizeRecompute c ∧
    (∀ k now, ((c.get k now).2.1).totalSize
      = totalSizeRecompute ((c.get k now).2.1)) ∧
    (∀ k now, ((c.has k now).2).totalSize
      = totalSizeRecompute ((c.has k now).2)) ∧
    (∀ k now, ((c.peek k now).2).totalSize
      = totalSizeRecompute ((c.peek k now).2)) ∧
    (∀ k v opts now, ((c.set k v opts now).1).totalSize
      = totalSizeRecompute ((c.set k v opts now).1)) ∧
    (∀ k reason, ((c.delete k reason).2.1).totalSize
      = totalSizeRecompute ((c.delete k reason).2.1)) ∧
    ((c.clear).1).totalSize = totalSizeRecompute ((c.clear).1) ∧
    (∀ now, ((c.prune now).1).totalSize
      = totalSizeRecompute ((c.prune now).1)) ∧
    (∀ data now, ((c.deserialize data now).1).totalSize
      = totalSizeRecompute ((c.deserialize data now).1)) := by
  refine ⟨h.totalSize_eq, ?_, ?_, ?_, ?_, ?_, (wf_clear c).totalSize_eq,
    ?_, ?_⟩
  · intro k now
    exact (wf_get h k now).totalSize_eq
  · intro k now
    rw [has_state_eq]
    exact h.totalSize_eq
  · intro k now
    rw [peek_state_eq]
    exact h.totalSize_eq
  · intro k v opts now
    exact (wf_set h k v opts now).totalSize_eq
  · intro k reason
    exact (wf_delete h k reason).totalSize_eq
  · intro now
    exact (wf_prune h now).totalSize_eq
  · intro data now
    exact (wf_deserialize c data now).totalSize_eq

/-- Witness for `c5_totalSize_invariant` at a concrete input. -/
theorem c5_totalSize_invariant_witness :
    exCacheTtl.WF ∧
    ((exCacheTtl.set 7 8 { ttl := none, size := some 4 } 0).1).totalSize
      = totalSizeRecompute ((exCacheTtl.set 7 8
          { ttl := none, size := some 4 } 0).1) :=
  ⟨by decide, (c5_totalSize_invariant exCacheTtl (by decide)).2.2.2.2.1
    7 8 { ttl := none, size := some 4 } 0⟩

/-- C6 (confirmed): for every well-formed cache with a finite `maxCount`,
the entry count never exceeds `maxCount` after any `set` returns; the
capacity phase only ever pops tails, so the surviving recency list is a
prefix of the old one (the evicted keys are exactly the least recently
touched ones); and the concrete scenario: `max = 2`, `set(10,1)`,
`set(20,2)`, `set(30,3)` gives `has(10) = false`, `has(20) = true`,
`has(30) = true`. -/
theorem c6_lru_eviction :
    (∀ (K V : Type) [DecidableEq K] [DecidableEq V] (c : LRUCache K V)
        (m : Nat) (k : K) (v : V) (opts : ItemOptions) (now : Int), c.WF →
      c.options.max = some m → ((c.set k v opts now).1).size ≤ m) ∧
    (∀ (K V : Type) [DecidableEq K] [DecidableEq V] (fuel : Nat)
        (c : LRUCache K V), ∃ rest,
      ((LRUCache.pruneLoopFuel fuel c).1).list.nodes ++ rest
        = c.list.nodes) ∧
    ((exCacheABC.has 10 0).1 = false ∧ (exCacheABC.has 20 0).1 = true ∧
      (exCacheABC.has 30 0).1 = true ∧ exCacheABC.size = 2) := by
  refine ⟨?_, ?_, by decide⟩
  · intro K V _ _ c m k v opts now h hm
    exact set_count_le h hm k v opts now
  · intro K V _ _ fuel c
    exact pruneLoopFuel_nodes_take fuel c

/-- Witness for `c6_lru_eviction` at a concrete input. -/
theorem c6_lru_eviction_witness :
    exCacheABC.WF ∧ exCacheABC.options.max = some 2 ∧
    ((exCacheABC.set 40 4 { ttl := none, size := none } 0).1).size ≤ 2 :=
  ⟨by decide, rfl, c6_lru_eviction.1 Nat Nat exCacheABC 2 40 4
    { ttl := none, size := none } 0 (by decide) rfl⟩

/-- C7 (confirmed): when an entry is expired and `allowStale` is enabled,
`get` returns the stale value and increments `hits`, leaving everything else
(recency order, index, counters) untouched; concretely with `ttl = 1000`,
`allowStale = true`, `set(5, 9)` at time 0 and the clock at 2000, `get(5)`
returns 9, `has(5)` is true, and the cache state changed only in `hits`. -/
theorem c7_allowStale_get :
    (∀ (K V : Type) [DecidableEq K] [DecidableEq V] (c : LRUCache K V)
        (k : K) (n : Node K V) (e now : Int),
      mapGet c.cache k = some n → n.expiry = some e → e < now →
      c.options.allowStale = true →
        c.get k now = (some n.value, { c with hits := c.hits + 1 }, [])) ∧
    ((exCacheStale.get 5 2000).1 = some 9 ∧
      (exCacheStale.get 5 2000).2.1.hits = 1 ∧
      (exCacheStale.has 5 2000).1 = true ∧
      (exCacheStale.get 5 2000).2.1.cache = exCacheStale.cache ∧
      (exCacheStale.get 5 2000).2.1.list = exCacheStale.list ∧
      (exCacheStale.get 5 2000).2.1.misses = exCacheStale.misses) := by
  refine ⟨?_, by decide⟩
  intro K V _ _ c k n e now hget hexp hlt hstale
  have hx : expiryLt n.expiry now = true := by
    rw [hexp]
    simp only [expiryLt, decide_eq_true_eq]
    exact hlt
  simp only [LRUCache.get, hget, hx, if_true, hstale]

/-- Witness for `c7_allowStale_get` at a concrete input. -/
theorem c7_allowStale_get_witness :
    mapGet exCacheStale.cache 5 = some ⟨5, 9, 1, some 1000⟩ ∧
    exCacheStale.get 5 2000
      = (some 9, { exCacheStale with hits := exCacheStale.hits + 1 }, []) :=
  ⟨by decide, c7_allowStale_get.1 Nat Nat exCacheStale 5 ⟨5, 9, 1, some 1000⟩
    1000 2000 (by decide) rfl (by decide) (by decide)⟩

/-- C8, counterexample: an entry whose expiry equals the current instant is
still reported present by `has` (strict freshness test), but `serialize`
drops it (`ttl = expiry - now = 0` is not positive), so the round trip into
a fresh cache with the same configuration loses a key that was still
returnable — the round-trip law fails as universally stated. -/
theorem c8_counterexample :
    (exCacheTtl.has 5 1000).1 = true ∧
    exCacheTtl.serialize 1000 = [] ∧
    (((emptyCache exOptsTtl).deserialize (exCacheTtl.serialize 1000)
        1000).1).cache = [] ∧
    ((((emptyCache exOptsTtl).deserialize (exCacheTtl.serialize 1000)
        1000).1).has 5 1000).1 = false := by
  decide

/-- C8 (amended): for a well-formed cache with `allowStale` disabled,
serializing at `now` and deserializing at the same instant into a fresh
unbounded cache whose default ttl is non-positive reproduces exactly the
entries whose expiry lies strictly in the future (or is absent), with
identical key, value, size, and (re-based) expiry; entries whose expiry is
exactly `now` — still returnable by `get`/`has` — are dropped, and under
`allowStale` expired entries would additionally be resurrected (see C10). -/
theorem c8_amended_round_trip {K V : Type} [DecidableEq K] [DecidableEq V]
    (c : LRUCache K V) (now : Int) (o2 : Options K V)
    (h : c.WF) (hstale : c.options.allowStale = false)
    (hmax : o2.max = none) (hms : o2.maxSize = none) (ht : o2.ttl ≤ 0) :
    (((emptyCache o2).deserialize (c.serialize now) now).1).cache
      = c.cache.filter (fun p => !expiryLe p.2.expiry now) :=
  round_trip_filter c now o2 h hstale hmax hms ht

/-- Witness for `c8_amended_round_trip` at a concrete input. -/
theorem c8_amended_round_trip_witness :
    exCacheTtl.WF ∧ exCacheTtl.options.allowStale = false ∧
    (((emptyCache exOptsPlain).deserialize (exCacheTtl.serialize 500)
        500).1).cache
      = exCacheTtl.cache.filter (fun p => !expiryLe p.2.expiry 500) :=
  ⟨by decide, by decide,
    c8_amended_round_trip exCacheTtl 500 exOptsPlain (by decide) (by decide)
      rfl rfl (by decide)⟩

/-- C9 (confirmed): `has` and `peek` leave the entire cache state unchanged
— no recency-order update, no change to `hits` or `misses`, no entry
removal — for every key, every instant, and every cache state, including
expired entries (the statement has no freshness hypothesis). -/
theorem c9_has_peek_pure :
    ∀ (K V : Type) [DecidableEq K] (c : LRUCache K V) (k : K) (now : Int),
      (c.has k now).2 = c ∧ (c.peek k now).2 = c := by
  intro K V _ c k now
  exact ⟨has_state_eq c k now, peek_state_eq c k now⟩

/-- C10, counterexample: the claim says an expired entry retained under
`allowStale` round-trips into an entry with no expiry timestamp at all.
`serialize` does emit the tuple with no ttl field, but `set` then falls back
to the receiving cache's default ttl: with `ttl = 1000` the rebuilt entry
gets expiry 3000 (deserialized at 2000), not "no expiry". -/
theorem c10_counterexample :
    exCacheStale.serialize 2000 = [(5, 9, { ttl := none, size := some 1 })] ∧
    mapGet (((emptyCache exOptsStale).deserialize
        (exCacheStale.serialize 2000) 2000).1).cache 5
      = some ⟨5, 9, 1, some 3000⟩ := by
  decide

/-- C10 (amended): for an expired entry retained under `allowStale`,
`serialize` emits its tuple with no ttl field; deserializing such a tuple
into a fresh unbounded cache stores the entry with the receiving cache's
default ttl applied afresh: no expiry (immortal) exactly when the default
ttl is non-positive, and a full fresh default TTL otherwise. -/
theorem c10_amended_stale_serialization :
    (∀ (K V : Type) [DecidableEq K] [DecidableEq V] (o : Options K V)
        (n : Node K V) (e : Int) (now ts : Int) (hits misses : Nat),
      o.allowStale = true → n.expiry = some e → e ≤ now →
        ((⟨o, [(n.key, n)], ⟨[n], 1⟩, ts, hits, misses⟩ :
            LRUCache K V)).serialize now
          = [(n.key, n.value, { ttl := none, size := some n.size })]) ∧
    (∀ (K V : Type) [DecidableEq K] [DecidableEq V] (o2 : Options K V)
        (k : K) (v : V) (s : Int) (now' : Int),
      o2.max = none → o2.maxSize = none →
        (((emptyCache o2).deserialize
            [(k, v, { ttl := none, size := some s })] now').1).cache
          = [(k, ⟨k, v, s,
              if o2.ttl > 0 then some (now' + o2.ttl) else none⟩)]) := by
  constructor
  · intro K V _ _ o n e now ts hits misses hstale hexp hle
    show serializeGo o.allowStale now [(n.key, n)] = _
    rw [hstale]
    simp only [serializeGo, hexp]
    rw [if_neg (by omega)]
    simp
  · intro K V _ _ o2 k v s now' hmax hms
    have hd := deserializeGo_cache_eq
      [(k, v, { ttl := none, size := some s })] (emptyCache o2) now'
      hmax hms
      (by
        intro p hp
        exact absurd hp (List.not_mem_nil _))
      (fun t _ => rfl) (by simp)
    unfold LRUCache.deserialize
    show ((deserializeGo (emptyCache o2)
        [(k, v, { ttl := none, size := some s })] now').1).cache = _
    rw [hd]
    show [] ++ [(k, setNode o2 k v { ttl := none, size := some s } now')] = _
    rw [List.nil_append]
    simp only [setNode, Option.getD_some, Option.getD_none]

/-- Witness for `c10_amended_stale_serialization` at a concrete input. -/
theorem c10_amended_stale_serialization_witness :
    exOptsStale.allowStale = true ∧ (1000 : Int) ≤ (2000 : Int) ∧
    ((⟨exOptsStale, [(5, ⟨5, 9, 1, some 1000⟩)], ⟨[⟨5, 9, 1, some 1000⟩], 1⟩,
        1, 0, 0⟩ : LRUCache Nat Nat)).serialize 2000
      = [(5, 9, { ttl := none, size := some 1 })] ∧
    (((emptyCache exOptsStale).deserialize
        [(5, 9, { ttl := none, size := some 1 })] 2000).1).cache
      = [(5, ⟨5, 9, 1, some 3000⟩)] := by
  refine ⟨rfl, by decide, ?_, ?_⟩
  · exact c10_amended_stale_serialization.1 Nat Nat exOptsStale
      ⟨5, 9, 1, some 1000⟩ 1000 2000 1 0 0 rfl rfl (by decide)
  · have h := c10_amended_stale_serialization.2 Nat Nat exOptsStale
      5 9 1 2000 rfl rfl
    rw [h]
    decide

end Lrufy
